import Mathlib

/-!
Verification of the `boto3_api` Ansible module (`library/aws.py`).

The module is a generic bridge from an untyped parameter tree to a boto3
client call and back.  We shallowly embed its data model and the pure
marshalling functions:

* `Node` — the untyped tree of mappings / sequences / scalars that the
  module passes around (Python dicts, lists, strings, ints, bools, None).
  Python dicts are modelled as association lists kept in insertion order;
  lookup takes the first matching key.  (Python's `dict(...)` collapses
  duplicate keys last-write-wins; the spec declares duplicate
  post-conversion keys undefined behaviour, and no claim below depends on
  duplicate keys.)
* `pc`, `cc`, `as_is` — the key-case converters.  Python's
  `token.capitalize()` upper-cases the first character and lower-cases the
  rest (ASCII behaviour, which is all that key strings use);
  `token[0]` on an empty string raises `IndexError`, so `cc` returns an
  `Option` and yields `none` exactly where the Python code would throw.
* `fix_input` — the input normalizer (digit coercion, omit sentinel,
  underscore escape, key-case conversion).
* `fix_return` — the output normalizer (tag-list unpacking).
* `process_response` — the response post-processing done by `main`
  (metadata pop, `boto3` version key, `changed` flag, snake-casing).
-/

/-- A node of the parameter / response tree: Python dicts, lists, strings,
integers, booleans and `None`.  Mappings are association lists in insertion
order. -/
inductive Node where
  | str (s : String)
  | int (n : Int)
  | bool (b : Bool)
  | null
  | list (l : List Node)
  | map (m : List (String × Node))

/-- Python `s.split(sep)` with an explicit one-character separator, on the
character list of the string: `"".split('_') = [""]`,
`"a__b".split('_') = ["a", "", "b"]`. -/
def pySplit (sep : Char) : List Char → List (List Char)
  | [] => [[]]
  | c :: rest =>
    match pySplit sep rest with
    | [] => [[c]]
    | t :: ts => if c = sep then [] :: t :: ts else (c :: t) :: ts

/-- Python `token.capitalize()` on a character list: upper-case the first
character, lower-case the rest (ASCII behaviour). -/
def pyCapitalize : List Char → List Char
  | [] => []
  | c :: rest => c.toUpper :: rest.map Char.toLower

/-- Source `pc(key)`: `"".join([token.capitalize() for token in key.split('_')])`. -/
def pc (key : String) : String :=
  String.mk (((pySplit '_' key.data).map pyCapitalize).flatten)

/-- Source `cc(key)`: `token = pc(key); "{}{}".format(token[0].lower(), token[1:])`.
Indexing `token[0]` raises `IndexError` when `pc key` is empty, modelled as
`none`. -/
def cc (key : String) : Option String :=
  match (pc key).data with
  | [] => none
  | c :: rest => some (String.mk (c.toLower :: rest))

/-- Source `as_is(key)`: the identity case converter. -/
def as_is (key : String) : String := key

/-- Spec-side token step for `toPascal` (for the refinement claim C6):
"capitalize the first letter of every token" — upper-case the first
character, keep the rest untouched. -/
def capFirstSpec : List Char → List Char
  | [] => []
  | c :: rest => c.toUpper :: rest

/-- Spec-side final step for `toCamel` (for the refinement claim C6):
"lower-case the first character of the result only". -/
def lowerFirstSpec (s : String) : String :=
  match s.data with
  | [] => s
  | c :: rest => String.mk (c.toLower :: rest)

/-- A lower-snake-case key: every character is a lowercase ASCII letter, a
decimal digit, or an underscore. -/
def isLowerSnakeChar (c : Char) : Bool :=
  c.isLower || c.isDigit || c = '_'

/-- Python `s.isdigit()` for ASCII strings: non-empty and every character a
decimal digit. -/
def pyIsDigit (s : String) : Bool :=
  !s.data.isEmpty && s.data.all Char.isDigit

/-- Python `s.startswith(p)`, character-wise. -/
def pyStartsWith (s p : String) : Bool :=
  p.data.isPrefixOf s.data

/-- Python `s[1:]`, character-wise. -/
def pyTail (s : String) : String :=
  String.mk s.data.tail

/-- Python `int(s)` on a digit-string: its decimal value. -/
def pyIntOfDigits (s : String) : Int :=
  (s.data.foldl (fun a c => a * 10 + (c.toNat - 48)) 0 : Nat)

/-- The omit-sentinel test used in `fix_input`'s dict branch:
`isinstance(node[item], string_types) and node[item].startswith('__omit_')`. -/
def isOmitVal : Node → Bool
  | .str s => pyStartsWith s "__omit_"
  | _ => false

/-- Association-list lookup, first match: Python `m[k]` / `k in m` on a dict
with unique keys. -/
def lookupKey (m : List (String × Node)) (k : String) : Option Node :=
  match m with
  | [] => none
  | p :: rest => if p.1 = k then some p.2 else lookupKey rest k

/-- The keys of a mapping, in order. -/
def keysOf (m : List (String × Node)) : List String := m.map Prod.fst

mutual

/-- Source `fix_input(node, key_int, key_case)`: the input normalizer.
`key_int` is the raw `convert_to_integer` module parameter, compared
against the literal strings `"yes"` / `"no"`; any other value leaves
digit-strings unchanged, exactly like `"no"` (the code's `elif` falls
through to the initial `node_value = node`). -/
def fix_input (node : Node) (key_int : String) (key_case : String → String) : Node :=
  match node with
  | .list l => .list (fixInputList l key_int key_case)
  | .map m => .map (fixInputMap m key_int key_case)
  | .str s =>
    if pyIsDigit s then
      if key_int = "yes" then .int (pyIntOfDigits s) else .str s
    else if pyStartsWith s "_" && pyIsDigit (pyTail s) then .str (pyTail s)
    else .str s
  | other => other

/-- The list comprehension `[fix_input(item, key_int, key_case) for item in node]`. -/
def fixInputList (l : List Node) (key_int : String) (key_case : String → String) :
    List Node :=
  match l with
  | [] => []
  | x :: xs => fix_input x key_int key_case :: fixInputList xs key_int key_case

/-- The dict comprehension of `fix_input`'s dict branch: pairs whose value is
an omit-sentinel string are dropped; otherwise the key is case-converted and
the value recursed. -/
def fixInputMap (m : List (String × Node)) (key_int : String)
    (key_case : String → String) : List (String × Node) :=
  match m with
  | [] => []
  | (k, v) :: rest =>
    if isOmitVal v then fixInputMap rest key_int key_case
    else (key_case k, fix_input v key_int key_case) :: fixInputMap rest key_int key_case

end

/-- Modelled from the spec: the external helper `boto3_tag_list_to_ansible_dict`
(imported from `ansible.module_utils.ec2`, not part of this repository) turns a
list of `\x7bKey: name, Value: value\x7d` pair-records into "a plain mapping of
tag-name → tag-value" (the inverse of the tags expander).  Items without that
shape contribute nothing; a non-list argument is outside the modelled contract
and is returned unchanged. -/
def boto3_tag_list_to_ansible_dict : Node → Node
  | .list l => .map (l.filterMap fun item =>
      match item with
      | .map im =>
        match lookupKey im "Key", lookupKey im "Value" with
        | some (.str k), some v => some (k, v)
        | _, _ => none
      | _ => none)
  | other => other

/-- One round of the tag-conversion loop in `fix_return`'s dict branch:
`node_value[tag_key] = boto3_tag_list_to_ansible_dict(node_value.pop(tag_key))`.
The `pop` removes the entry and the assignment re-inserts the converted value
at the end of the dict (the key was just removed, so insertion appends). -/
def tagFix (m : List (String × Node)) (tagKey : String) : List (String × Node) :=
  match lookupKey m tagKey with
  | none => m
  | some v =>
    (m.filter fun p => !(p.1 == tagKey)) ++ [(tagKey, boto3_tag_list_to_ansible_dict v)]

mutual

/-- Source `fix_return(node, convert_tags=False)`: the output normalizer.
Note that both recursive calls — `fix_return(item)` in the list branch and
`fix_return(node[item])` in the dict branch — pass no `convert_tags`
argument, so recursion always uses the default `False`.  The `datetime` and
`StreamingBody` leaf branches are outside the `Node` model (no claim
involves them). -/
def fix_return (node : Node) (convert_tags : Bool) : Node :=
  match node with
  | .list l => .list (fixReturnList l)
  | .map m =>
    .map (if convert_tags then tagFix (tagFix (fixReturnMap m) "tags") "Tags"
          else fixReturnMap m)
  | other => other

/-- The list comprehension `[fix_return(item) for item in node]`. -/
def fixReturnList : List Node → List Node
  | [] => []
  | x :: xs => fix_return x false :: fixReturnList xs

/-- The dict comprehension `dict([(item, fix_return(node[item])) for item in node.keys()])`. -/
def fixReturnMap : List (String × Node) → List (String × Node)
  | [] => []
  | (k, v) :: rest => (k, fix_return v false) :: fixReturnMap rest

end

/-- The first regex pass of ansible's `camel_to_snake`
(`ansible.module_utils.ec2`, external to this repository):
`re.sub('(.)([A-Z][a-z]+)', r'\1_\2', name)` — before any uppercase letter
that is followed by at least one lowercase letter and preceded by some
character, insert an underscore.  Matches are leftmost and non-overlapping;
`.` matches any character except a newline. -/
def reSubFirstCap : List Char → List Char
  | [] => []
  | [c] => [c]
  | c0 :: c1 :: rest =>
    let lows := rest.takeWhile Char.isLower
    if c0 ≠ '\n' && c1.isUpper && !lows.isEmpty then
      c0 :: '_' :: c1 :: (lows ++ reSubFirstCap (rest.drop lows.length))
    else
      c0 :: reSubFirstCap (c1 :: rest)
termination_by l => l.length
decreasing_by
  · simp; omega
  · simp

/-- The second regex pass of ansible's `camel_to_snake`:
`re.sub('([a-z0-9])([A-Z])', r'\1_\2', s1)` — insert an underscore between a
lowercase letter or digit and an uppercase letter; the match consumes both
characters, so scanning resumes after the uppercase one. -/
def reSubAllCap : List Char → List Char
  | [] => []
  | [c] => [c]
  | c0 :: c1 :: rest =>
    if (c0.isLower || c0.isDigit) && c1.isUpper then
      c0 :: '_' :: c1 :: reSubAllCap rest
    else
      c0 :: reSubAllCap (c1 :: rest)

/-- Ansible's `camel_to_snake` (external, `ansible.module_utils.ec2`): the two
regex passes followed by `.lower()`. -/
def camel_to_snake (name : String) : String :=
  String.mk ((reSubAllCap (reSubFirstCap name.data)).map Char.toLower)

mutual

/-- Ansible's `camel_dict_to_snake_dict` (external, `ansible.module_utils.ec2`):
rewrite every key with `camel_to_snake`, recursing into dict and list values. -/
def camel_dict_to_snake_dict : List (String × Node) → List (String × Node)
  | [] => []
  | (k, v) :: rest => (camel_to_snake k, snakeValue v) :: camel_dict_to_snake_dict rest

/-- Value dispatch of `camel_dict_to_snake_dict`: dicts recurse, lists go
through `value_is_list`, everything else is kept. -/
def snakeValue : Node → Node
  | .map m => .map (camel_dict_to_snake_dict m)
  | .list l => .list (snakeList l)
  | other => other

/-- Ansible's `value_is_list`: recurse into dict and list elements of a list. -/
def snakeList : List Node → List Node
  | [] => []
  | x :: xs => snakeValue x :: snakeList xs

end

/-- Python `str(x)` as used on `meta_data['HTTPStatusCode']`.  For containers
only the first character ever matters to `startswith('2')`; `str` of a list
starts with `'['` and `str` of a dict with a brace, which the placeholders
preserve. -/
def pyStr : Node → String
  | .str s => s
  | .int n => toString n
  | .bool b => if b then "True" else "False"
  | .null => "None"
  | .list _ => "["
  | .map _ => "\x7b"

/-- Python `m.pop(k)`'s removal effect on a dict (unique keys). -/
def eraseKey (m : List (String × Node)) (k : String) : List (String × Node) :=
  m.filter fun p => !(p.1 == k)

/-- Python `m[k] = v` on a dict: replace in place when the key is present,
append otherwise. -/
def setKey (m : List (String × Node)) (k : String) (v : Node) : List (String × Node) :=
  if (lookupKey m k).isSome then m.map fun p => if p.1 = k then (k, v) else p
  else m ++ [(k, v)]

/-- Total extractor for a node that is known to be a mapping (used where the
source calls `camel_dict_to_snake_dict` on a value that is always a dict). -/
def asMap : Node → List (String × Node)
  | .map m => m
  | _ => []

/-- The response post-processing of `main` (lines 335–343 of `aws.py`):

    meta_data = response.pop('ResponseMetadata')
    response['boto3'] = boto3.__version__
    if str(meta_data['HTTPStatusCode']).startswith('2'):
        response['changed'] = True
    ...
    module.exit_json(**camel_dict_to_snake_dict(fix_return(response, convert_tags=True)))

`ver` is `boto3.__version__`.  `none` models the `KeyError` raised when
`ResponseMetadata` or `HTTPStatusCode` is absent (or subscripted on a
non-dict), which `main` does not catch. -/
def process_response (response : Node) (ver : String) : Option Node :=
  match response with
  | .map m =>
    match lookupKey m "ResponseMetadata" with
    | some (.map mm) =>
      let m1 := eraseKey m "ResponseMetadata"
      let m2 := setKey m1 "boto3" (.str ver)
      match lookupKey mm "HTTPStatusCode" with
      | some code =>
        let m3 := if pyStartsWith (pyStr code) "2" then setKey m2 "changed" (.bool true)
                  else m2
        some (.map (camel_dict_to_snake_dict (asMap (fix_return (.map m3) true))))
      | none => none
    | some _ => none
    | none => none
  | _ => none

/-- Scalar (non-container) nodes: strings, integers, booleans, `None`. -/
def isScalarNode : Node → Bool
  | .list _ => false
  | .map _ => false
  | _ => true

mutual

/-- Total number of sequence elements in a tree (each list contributes its
length, recursively through lists and mapping values). -/
def seqCount : Node → Nat
  | .list l => l.length + seqCountList l
  | .map m => seqCountMap m
  | _ => 0

def seqCountList : List Node → Nat
  | [] => 0
  | x :: xs => seqCount x + seqCountList xs

def seqCountMap : List (String × Node) → Nat
  | [] => 0
  | p :: ps => seqCount p.2 + seqCountMap ps

end

mutual

/-- The spec's structural-homomorphism invariant for input normalization
(claim C5), as a relation between an input tree and its normalized image:
scalars map to scalars, sequences map element-wise (preserving length and
order), and mappings map pair-wise over their non-dropped pairs, with keys
rewritten by the active case convention. -/
inductive InputHomo (ki : String) (kc : String → String) : Node → Node → Prop where
  | scalar (a b : Node) :
      isScalarNode a = true → isScalarNode b = true → InputHomo ki kc a b
  | list (l lp : List Node) :
      InputHomoList ki kc l lp → InputHomo ki kc (.list l) (.list lp)
  | map (m mp : List (String × Node)) :
      InputHomoMap ki kc (m.filter fun p => !isOmitVal p.2) mp →
      InputHomo ki kc (.map m) (.map mp)

/-- Element-wise lifting of `InputHomo` to sequences: same length, same
order, related element by element. -/
inductive InputHomoList (ki : String) (kc : String → String) :
    List Node → List Node → Prop where
  | nil : InputHomoList ki kc [] []
  | cons (x y : Node) (xs ys : List Node) :
      InputHomo ki kc x y → InputHomoList ki kc xs ys →
      InputHomoList ki kc (x :: xs) (y :: ys)

/-- Pair-wise lifting of `InputHomo` to mapping entries: keys rewritten by
the case convention, values related, order preserved. -/
inductive InputHomoMap (ki : String) (kc : String → String) :
    List (String × Node) → List (String × Node) → Prop where
  | nil : InputHomoMap ki kc [] []
  | cons (p q : String × Node) (ps qs : List (String × Node)) :
      q.1 = kc p.1 → InputHomo ki kc p.2 q.2 → InputHomoMap ki kc ps qs →
      InputHomoMap ki kc (p :: ps) (q :: qs)

end

/-! ### Character-arithmetic helper lemmas -/

theorem char_toNat_ofNat (n : Nat) (h : n < 55296) : (Char.ofNat n).toNat = n := by
  simp [Char.ofNat]
  rw [dif_pos (Or.inl h)]
  simp [Char.ofNatAux, Char.toNat, UInt32.toNat, UInt32.ofNat', BitVec.ofNat]

theorem char_isUpper_iff (c : Char) : c.isUpper = true ↔ 65 ≤ c.toNat ∧ c.toNat ≤ 90 := by
  simp [Char.isUpper, UInt32.le_def, BitVec.le_def, Char.toNat, UInt32.toNat]

theorem char_isLower_iff (c : Char) : c.isLower = true ↔ 97 ≤ c.toNat ∧ c.toNat ≤ 122 := by
  simp [Char.isLower, UInt32.le_def, BitVec.le_def, Char.toNat, UInt32.toNat]

theorem char_isDigit_iff (c : Char) : c.isDigit = true ↔ 48 ≤ c.toNat ∧ c.toNat ≤ 57 := by
  simp [Char.isDigit, UInt32.le_def, BitVec.le_def, Char.toNat, UInt32.toNat]

theorem char_toLower_of_upper (c : Char) (h : 65 ≤ c.toNat ∧ c.toNat ≤ 90) :
    c.toLower = Char.ofNat (c.toNat + 32) := by
  simp [Char.toLower, h]

theorem char_toLower_of_not_upper (c : Char) (h : ¬ (65 ≤ c.toNat ∧ c.toNat ≤ 90)) :
    c.toLower = c := by
  simp [Char.toLower, h]

theorem toLower_isUpper_false (c : Char) : (c.toLower).isUpper = false := by
  by_cases hc : 65 ≤ c.toNat ∧ c.toNat ≤ 90
  · rw [char_toLower_of_upper c hc]
    rw [Bool.eq_false_iff]
    intro hu
    rw [char_isUpper_iff] at hu
    rw [char_toNat_ofNat (c.toNat + 32) (by omega)] at hu
    omega
  · rw [char_toLower_of_not_upper c hc]
    rw [Bool.eq_false_iff]
    intro hu
    rw [char_isUpper_iff] at hu
    exact hc hu

theorem toLower_eq_self_of_not_upper (c : Char) (h : c.isUpper = false) : c.toLower = c := by
  apply char_toLower_of_not_upper
  rw [← char_isUpper_iff, h]
  simp

/-! ### Basic equations for the normalizers -/

theorem fixInputList_eq_map (l : List Node) (ki : String) (kc : String → String) :
    fixInputList l ki kc = l.map (fix_input · ki kc) := by
  induction l with
  | nil => simp [fixInputList]
  | cons x xs ih => simp [fixInputList, ih]

theorem fixInputMap_eq_filter_map (m : List (String × Node)) (ki : String)
    (kc : String → String) :
    fixInputMap m ki kc
      = (m.filter fun p => !isOmitVal p.2).map fun p => (kc p.1, fix_input p.2 ki kc) := by
  induction m with
  | nil => simp [fixInputMap]
  | cons p rest ih =>
    obtain ⟨k, v⟩ := p
    by_cases hv : isOmitVal v = true
    · simp [fixInputMap, hv, List.filter_cons, ih]
    · simp only [Bool.not_eq_true] at hv
      simp [fixInputMap, hv, List.filter_cons, ih]

theorem pyStartsWith_iff (s p : String) : pyStartsWith s p = true ↔ p.data <+: s.data := by
  simp [pyStartsWith]

theorem pyIsDigit_false_of_head_underscore (s : String) (l : List Char)
    (h : s.data = '_' :: l) : pyIsDigit s = false := by
  simp [pyIsDigit, h]

theorem omit_shape (s : String) (homit : pyStartsWith s "__omit_" = true) :
    ∃ u, s.data = '_' :: '_' :: 'o' :: 'm' :: 'i' :: 't' :: '_' :: u := by
  rw [pyStartsWith_iff] at homit
  obtain ⟨u, hu⟩ := homit
  exact ⟨u, hu.symm⟩

/-- A scalar string carrying the omit sentinel is left unchanged by
`fix_input`'s scalar branch: it is not a digit-string, and its tail starts
with another underscore, so the underscore-escape branch does not fire
either. -/
theorem fix_input_omit_str_unchanged (s ki : String) (kc : String → String)
    (homit : pyStartsWith s "__omit_" = true) :
    fix_input (.str s) ki kc = .str s := by
  obtain ⟨u, hu⟩ := omit_shape s homit
  have h1 : pyIsDigit s = false := pyIsDigit_false_of_head_underscore s _ hu
  have h3 : pyIsDigit (pyTail s) = false := by
    apply pyIsDigit_false_of_head_underscore (pyTail s) ('o' :: 'm' :: 'i' :: 't' :: '_' :: u)
    simp [pyTail, hu]
  simp [fix_input, h1, h3]

theorem lookupKey_fixInputMap_none (m : List (String × Node)) (ki q : String)
    (kc : String → String) (hcol : ∀ p ∈ m, kc p.1 = q → isOmitVal p.2 = true) :
    lookupKey (fixInputMap m ki kc) q = none := by
  induction m with
  | nil => simp [fixInputMap, lookupKey]
  | cons p rest ih =>
    obtain ⟨k1, v1⟩ := p
    by_cases hv : isOmitVal v1 = true
    · simp only [fixInputMap, hv, if_true]
      exact ih fun p hp hq => hcol p (List.mem_cons_of_mem _ hp) hq
    · have hne : ¬ (kc k1 = q) := fun hq => hv (hcol (k1, v1) (List.mem_cons_self _ _) hq)
      simp only [fixInputMap, hv, if_false, lookupKey, hne, if_neg hne]
      exact ih fun p hp hq => hcol p (List.mem_cons_of_mem _ hp) hq

theorem fixReturnList_eq_map (l : List Node) :
    fixReturnList l = l.map (fix_return · false) := by
  induction l with
  | nil => simp [fixReturnList]
  | cons x xs ih => simp [fixReturnList, ih]

theorem fixReturnMap_eq_map (m : List (String × Node)) :
    fixReturnMap m = m.map fun p => (p.1, fix_return p.2 false) := by
  induction m with
  | nil => simp [fixReturnMap]
  | cons p rest ih =>
    obtain ⟨k, v⟩ := p
    simp [fixReturnMap, ih]

/-! ### Claim theorems: input normalizer scalar and mapping rules -/

/-- Claim C1: For every scalar string node composed entirely of decimal digits,
`fix_input` converts it to the corresponding integer when the digit-coercion
flag (`convert_to_integer`, compared against `"yes"`/`"no"`) is on, and
preserves the original digit-string verbatim when it is off, for any case
convention. -/
theorem fix_input_digit_coercion (s : String) (kc : String → String)
    (h : pyIsDigit s = true) :
    fix_input (.str s) "yes" kc = .int (pyIntOfDigits s) ∧
    fix_input (.str s) "no" kc = .str s := by
  constructor <;> simp [fix_input, h]

/-- Witness for `fix_input_digit_coercion` at the spec's own example `"123"`. -/
theorem fix_input_digit_coercion_witness :
    fix_input (.str "123") "yes" as_is = .int 123 ∧
    fix_input (.str "123") "no" as_is = .str "123" := by
  have h := fix_input_digit_coercion "123" as_is (by decide)
  have hv : pyIntOfDigits "123" = 123 := by decide
  exact ⟨by rw [h.1, hv], h.2⟩

/-- Claim C7: A key/value pair whose value is a scalar string starting with the
omit sentinel `__omit_` is dropped from the normalized mapping: the
case-converted key is absent from the output, for any digit-coercion flag and
case convention.  `hcol` rules out an unrelated surviving pair whose key
converts to the same string (the spec leaves duplicate post-conversion keys
undefined). -/
theorem fix_input_omit_dropped (m : List (String × Node)) (k s ki : String)
    (kc : String → String) (_hmem : (k, Node.str s) ∈ m)
    (_homit : pyStartsWith s "__omit_" = true)
    (hcol : ∀ p ∈ m, kc p.1 = kc k → isOmitVal p.2 = true) :
    lookupKey (asMap (fix_input (.map m) ki kc)) (kc k) = none := by
  have : fix_input (.map m) ki kc = .map (fixInputMap m ki kc) := by simp [fix_input]
  rw [this]
  exact lookupKey_fixInputMap_none m ki (kc k) kc hcol

/-- Witness for `fix_input_omit_dropped`: the key `"a"` with value
`"__omit_me"` is absent from the normalized mapping. -/
theorem fix_input_omit_dropped_witness :
    lookupKey (asMap (fix_input (.map [("a", .str "__omit_me"), ("b", .str "x")]) "yes" as_is))
      (as_is "a") = none := by
  exact fix_input_omit_dropped [("a", .str "__omit_me"), ("b", .str "x")] "a" "__omit_me"
    "yes" as_is (by simp) (by decide) (by decide)

/-- Claim C8: A scalar string starting with `_` followed by one or more digits is
normalized by stripping the leading underscore, keeping the rest as a string,
regardless of the digit-coercion flag and case convention. -/
theorem fix_input_underscore_escape (s ki : String) (kc : String → String)
    (h1 : pyStartsWith s "_" = true) (h2 : pyIsDigit (pyTail s) = true) :
    fix_input (.str s) ki kc = .str (pyTail s) := by
  rw [pyStartsWith_iff] at h1
  obtain ⟨u, hu⟩ := h1
  have h0 : pyIsDigit s = false := pyIsDigit_false_of_head_underscore s u hu.symm
  have h1' : pyStartsWith s "_" = true := by rw [pyStartsWith_iff]; exact ⟨u, hu⟩
  simp [fix_input, h0, h1', h2]

/-- Witness for `fix_input_underscore_escape`: `"_123"` normalizes to the
string `"123"` for both values of the digit-coercion flag. -/
theorem fix_input_underscore_escape_witness :
    fix_input (.str "_123") "yes" as_is = .str "123" ∧
    fix_input (.str "_123") "no" as_is = .str "123" := by
  have hy := fix_input_underscore_escape "_123" "yes" as_is (by decide) (by decide)
  have hn := fix_input_underscore_escape "_123" "no" as_is (by decide) (by decide)
  have ht : pyTail "_123" = "123" := by decide
  exact ⟨by rw [hy, ht], by rw [hn, ht]⟩

/-- Claim C9: An element of a sequence that is a scalar string starting with the
omit prefix is preserved verbatim at its position: the drop rule applies only
to mapping values, never to sequence elements. -/
theorem fix_input_seq_omit_preserved (l : List Node) (i : Nat) (s ki : String)
    (kc : String → String) (hget : l[i]? = some (.str s))
    (homit : pyStartsWith s "__omit_" = true) :
    ∃ l', fix_input (.list l) ki kc = .list l' ∧ l'[i]? = some (.str s) := by
  refine ⟨fixInputList l ki kc, by simp [fix_input], ?_⟩
  rw [fixInputList_eq_map, List.getElem?_map, hget]
  simp only [Option.map_some']
  rw [fix_input_omit_str_unchanged s ki kc homit]

/-- Witness for `fix_input_seq_omit_preserved`: `"__omit_me"` survives inside
a list. -/
theorem fix_input_seq_omit_preserved_witness :
    ∃ l', fix_input (.list [.str "__omit_me"]) "yes" as_is = .list l' ∧
      l'[0]? = some (.str "__omit_me") := by
  exact fix_input_seq_omit_preserved [.str "__omit_me"] 0 "__omit_me" "yes" as_is
    (by simp) (by decide)

/-! ### Case-converter lemmas (claims C3 and C6) -/

theorem pyCapitalize_eq_nil_iff (t : List Char) : pyCapitalize t = [] ↔ t = [] := by
  cases t <;> simp [pyCapitalize]

theorem pySplit_ne_nil (sep : Char) (cs : List Char) : pySplit sep cs ≠ [] := by
  cases cs with
  | nil => simp [pySplit]
  | cons c rest =>
    simp only [pySplit]
    rcases h : pySplit sep rest with _ | ⟨t, ts⟩
    · simp
    · by_cases hc : c = sep <;> simp [hc]

theorem pySplit_all_empty_iff (sep : Char) (cs : List Char) :
    (∀ t ∈ pySplit sep cs, t = []) ↔ ∀ c ∈ cs, c = sep := by
  induction cs with
  | nil => simp [pySplit]
  | cons c rest ih =>
    rcases h : pySplit sep rest with _ | ⟨t, ts⟩
    · exact absurd h (pySplit_ne_nil sep rest)
    · rw [h] at ih
      by_cases hc : c = sep
      · simp only [pySplit, h, hc, if_true]
        simp only [List.mem_cons, forall_eq_or_imp] at ih ⊢
        tauto
      · simp only [pySplit, h, hc, if_false]
        simp only [List.mem_cons, forall_eq_or_imp] at ih ⊢
        constructor
        · rintro ⟨hct, -⟩
          exact absurd hct (List.cons_ne_nil c t)
        · rintro ⟨hcs, -⟩
          exact absurd hcs hc

theorem flatten_map_pyCapitalize_filter (ts : List (List Char)) :
    (ts.map pyCapitalize).flatten
      = ((ts.filter fun t => !t.isEmpty).map pyCapitalize).flatten := by
  induction ts with
  | nil => simp
  | cons t rest ih =>
    cases t with
    | nil => simpa [pyCapitalize] using ih
    | cons c cs => simp [List.filter_cons, pyCapitalize, ih]

/-- Claim C3 (counterexample): The claim says `pc` and `cc` terminate without
throwing for every key string.  `cc ""` evaluates `token[0]` on the empty
Pascal form and raises `IndexError` (modelled as `none`). -/
theorem cc_empty_key_raises : cc "" = none := by decide

theorem pc_data_eq_nil_iff (key : String) :
    ((pc key).data = []) ↔ ∀ c ∈ key.data, c = '_' := by
  have hdata : (pc key).data = ((pySplit '_' key.data).map pyCapitalize).flatten := rfl
  rw [hdata, List.flatten_eq_nil_iff]
  constructor
  · intro h
    rw [← pySplit_all_empty_iff '_' key.data]
    intro t ht
    exact (pyCapitalize_eq_nil_iff t).mp (h (pyCapitalize t) (List.mem_map_of_mem _ ht))
  · intro h t ht
    rw [List.mem_map] at ht
    obtain ⟨t0, ht0, rfl⟩ := ht
    rw [pyCapitalize_eq_nil_iff]
    exact (pySplit_all_empty_iff '_' key.data).mpr h t0 ht0

theorem cc_isSome_iff (key : String) :
    (cc key).isSome = true ↔ key.data.any (fun c => c != '_') = true := by
  have hcc : (cc key).isSome = true ↔ (pc key).data ≠ [] := by
    unfold cc
    rcases h : (pc key).data with _ | ⟨c, rest⟩ <;> simp
  rw [hcc, List.any_eq_true]
  constructor
  · intro hne
    by_contra hno
    push_neg at hno
    apply hne
    rw [pc_data_eq_nil_iff]
    intro c hcmem
    simpa using hno c hcmem
  · rintro ⟨c, hcmem, hcne⟩ h0
    rw [pc_data_eq_nil_iff] at h0
    have hc' : c = '_' := h0 c hcmem
    simp [hc'] at hcne

theorem pc_filtered_tokens (key : String) :
    pc key
      = String.mk ((((pySplit '_' key.data).filter fun t => !t.isEmpty).map
          pyCapitalize).flatten) := by
  unfold pc
  rw [flatten_map_pyCapitalize_filter]

/-- Claim C3 (amended): `pc` is total and empty tokens (consecutive, leading or
trailing underscores) contribute nothing to its output — filtering them out
changes nothing; `cc` returns a result exactly when the key contains some
character other than `'_'`, and raises (returns `none`) on the empty key and
on keys consisting solely of underscores. -/
theorem pc_cc_empty_token_behaviour :
    ∀ key : String,
      pc key
        = String.mk ((((pySplit '_' key.data).filter fun t => !t.isEmpty).map
            pyCapitalize).flatten)
      ∧ ((cc key).isSome = true ↔ key.data.any (fun c => c != '_') = true) :=
  fun key => ⟨pc_filtered_tokens key, cc_isSome_iff key⟩

theorem lower_snake_not_upper (c : Char) (h : isLowerSnakeChar c = true) :
    c.isUpper = false := by
  simp only [isLowerSnakeChar, Bool.or_eq_true, decide_eq_true_eq] at h
  rcases h with (h | h) | h
  · rw [Bool.eq_false_iff]
    intro hu
    rw [char_isUpper_iff] at hu
    rw [char_isLower_iff] at h
    omega
  · rw [Bool.eq_false_iff]
    intro hu
    rw [char_isUpper_iff] at hu
    rw [char_isDigit_iff] at h
    omega
  · subst h
    decide

theorem pyCapitalize_eq_capFirstSpec (t : List Char)
    (h : ∀ c ∈ t, isLowerSnakeChar c = true) :
    pyCapitalize t = capFirstSpec t := by
  cases t with
  | nil => rfl
  | cons c rest =>
    simp only [pyCapitalize, capFirstSpec, List.cons.injEq, true_and]
    have hmap : ∀ c' ∈ rest, c'.toLower = c' := fun c' hc' =>
      toLower_eq_self_of_not_upper c'
        (lower_snake_not_upper c' (h c' (List.mem_cons_of_mem _ hc')))
    calc rest.map Char.toLower = rest.map id := List.map_congr_left hmap
    _ = rest := List.map_id rest

theorem pySplit_token_chars (sep : Char) (cs : List Char) :
    ∀ t ∈ pySplit sep cs, ∀ c ∈ t, c ∈ cs := by
  induction cs with
  | nil =>
    intro t ht c hc
    simp [pySplit] at ht
    subst ht
    simp at hc
  | cons c0 rest ih =>
    intro t ht c hc
    rcases h : pySplit sep rest with _ | ⟨t0, ts⟩
    · exact absurd h (pySplit_ne_nil sep rest)
    · rw [h] at ih
      by_cases hc0 : c0 = sep
      · simp only [pySplit, h, hc0, if_true] at ht
        rcases List.mem_cons.mp ht with rfl | ht'
        · simp at hc
        · exact List.mem_cons_of_mem _ (ih t ht' c hc)
      · simp only [pySplit, h, hc0, if_false] at ht
        rcases List.mem_cons.mp ht with rfl | ht'
        · rcases List.mem_cons.mp hc with rfl | hc'
          · exact List.mem_cons_self _ _
          · exact List.mem_cons_of_mem _ (ih t0 (List.mem_cons_self _ _) c hc')
        · exact List.mem_cons_of_mem _ (ih t (List.mem_cons_of_mem _ ht') c hc)

/-- Claim C6: On lower-snake-case keys (lowercase letters, digits, underscores,
with at least one non-underscore character), `pc` is the spec's `toPascal`:
split on `'_'`, capitalize the first letter of every token, concatenate; and
`cc` is the spec's `toCamel`: `toPascal` followed by lower-casing only the
first character; concretely `pc "this_function_name" = "ThisFunctionName"`
and `cc "this_function_name" = some "thisFunctionName"`. -/
theorem pc_cc_lower_snake (key : String)
    (hchars : ∀ c ∈ key.data, isLowerSnakeChar c = true)
    (hsome : key.data.any (fun c => c != '_') = true) :
    pc key = String.mk (((pySplit '_' key.data).map capFirstSpec).flatten)
    ∧ cc key = some (lowerFirstSpec (pc key))
    ∧ pc "this_function_name" = "ThisFunctionName"
    ∧ cc "this_function_name" = some "thisFunctionName" := by
  refine ⟨?_, ?_, by decide, by decide⟩
  · unfold pc
    congr 1
    congr 1
    apply List.map_congr_left
    intro t ht
    exact pyCapitalize_eq_capFirstSpec t
      (fun c hc => hchars c (pySplit_token_chars '_' key.data t ht c hc))
  · have hne : (cc key).isSome = true := (cc_isSome_iff key).mpr hsome
    rcases hd : (pc key).data with _ | ⟨c, rest⟩
    · exfalso
      unfold cc at hne
      rw [hd] at hne
      simp at hne
    · unfold cc lowerFirstSpec
      rw [hd]

/-- Witness for `pc_cc_lower_snake` at the spec's own example key. -/
theorem pc_cc_lower_snake_witness :
    pc "this_function_name" = String.mk
      (((pySplit '_' "this_function_name".data).map capFirstSpec).flatten)
    ∧ cc "this_function_name" = some (lowerFirstSpec (pc "this_function_name"))
    ∧ pc "this_function_name" = "ThisFunctionName"
    ∧ cc "this_function_name" = some "thisFunctionName" :=
  pc_cc_lower_snake "this_function_name" (by decide) (by decide)

/-! ### Structural homomorphism of the input normalizer (claim C5) -/

theorem Node.inductionOn {P : Node → Prop}
    (hscalar : ∀ n, isScalarNode n = true → P n)
    (hlist : ∀ l, (∀ x ∈ l, P x) → P (.list l))
    (hmap : ∀ m, (∀ p ∈ m, P p.2) → P (.map m)) :
    ∀ n, P n
  | .str s => hscalar (.str s) rfl
  | .int i => hscalar (.int i) rfl
  | .bool b => hscalar (.bool b) rfl
  | .null => hscalar .null rfl
  | .list l => hlist l fun x hx =>
      Node.inductionOn hscalar hlist hmap x
  | .map m => hmap m fun p hp =>
      Node.inductionOn hscalar hlist hmap p.2
termination_by n => sizeOf n
decreasing_by
  · have h1 := List.sizeOf_lt_of_mem hx
    simp only [Node.list.sizeOf_spec]
    omega
  · have h1 := List.sizeOf_lt_of_mem hp
    obtain ⟨k, v⟩ := p
    simp only [Node.map.sizeOf_spec, Prod.mk.sizeOf_spec] at h1 ⊢
    omega

theorem isOmitVal_seqCount_zero (v : Node) (h : isOmitVal v = true) :
    seqCount v = 0 := by
  cases v <;> simp [isOmitVal] at h <;> simp [seqCount]

theorem seqCountList_congr (l : List Node) (f : Node → Node)
    (h : ∀ x ∈ l, seqCount (f x) = seqCount x) :
    seqCountList (l.map f) = seqCountList l := by
  induction l with
  | nil => simp
  | cons x xs ih =>
    simp only [List.map_cons, seqCountList]
    rw [h x (List.mem_cons_self _ _), ih fun x hx => h x (List.mem_cons_of_mem _ hx)]

theorem seqCountMap_congr (ms : List (String × Node)) (g : String → String)
    (f : Node → Node) (h : ∀ p ∈ ms, seqCount (f p.2) = seqCount p.2) :
    seqCountMap (ms.map fun p => (g p.1, f p.2)) = seqCountMap ms := by
  induction ms with
  | nil => simp
  | cons p ps ih =>
    simp only [List.map_cons, seqCountMap]
    rw [h p (List.mem_cons_self _ _), ih fun p hp => h p (List.mem_cons_of_mem _ hp)]

theorem seqCountMap_filter_omit (m : List (String × Node)) :
    seqCountMap (m.filter fun p => !isOmitVal p.2) = seqCountMap m := by
  induction m with
  | nil => simp
  | cons p ps ih =>
    by_cases hv : isOmitVal p.2 = true
    · simp [List.filter_cons, hv, seqCountMap, ih, isOmitVal_seqCount_zero p.2 hv]
    · simp only [Bool.not_eq_true] at hv
      simp [List.filter_cons, hv, seqCountMap, ih]

theorem fixInputList_length (l : List Node) (ki : String) (kc : String → String) :
    (fixInputList l ki kc).length = l.length := by
  rw [fixInputList_eq_map, List.length_map]

theorem keysOf_fixInputMap (m : List (String × Node)) (ki : String)
    (kc : String → String) :
    keysOf (fixInputMap m ki kc) = (m.filter fun p => !isOmitVal p.2).map fun p => kc p.1 := by
  rw [fixInputMap_eq_filter_map, keysOf, List.map_map]
  rfl

theorem inputHomoList_of_forall (ki : String) (kc : String → String)
    (l : List Node) (h : ∀ x ∈ l, InputHomo ki kc x (fix_input x ki kc)) :
    InputHomoList ki kc l (l.map (fix_input · ki kc)) := by
  induction l with
  | nil => exact InputHomoList.nil
  | cons x xs ih =>
    exact InputHomoList.cons _ _ _ _ (h x (List.mem_cons_self _ _))
      (ih fun x hx => h x (List.mem_cons_of_mem _ hx))

theorem inputHomoMap_of_forall (ki : String) (kc : String → String)
    (ms : List (String × Node)) (h : ∀ p ∈ ms, InputHomo ki kc p.2 (fix_input p.2 ki kc)) :
    InputHomoMap ki kc ms (ms.map fun p => (kc p.1, fix_input p.2 ki kc)) := by
  induction ms with
  | nil => exact InputHomoMap.nil
  | cons p ps ih =>
    exact InputHomoMap.cons _ _ _ _ rfl (h p (List.mem_cons_self _ _))
      (ih fun p hp => h p (List.mem_cons_of_mem _ hp))

theorem fix_input_scalar_to_scalar (n : Node) (ki : String) (kc : String → String)
    (hs : isScalarNode n = true) :
    isScalarNode (fix_input n ki kc) = true := by
  cases n with
  | str s =>
    simp only [fix_input]
    split
    · split <;> rfl
    · split <;> rfl
  | int i => rfl
  | bool b => rfl
  | null => rfl
  | list l => exact absurd hs (by simp [isScalarNode])
  | map m => exact absurd hs (by simp [isScalarNode])

theorem seqCount_scalar_zero (n : Node) (hs : isScalarNode n = true) :
    seqCount n = 0 := by
  cases n with
  | list l => exact absurd hs (by simp [isScalarNode])
  | map m => exact absurd hs (by simp [isScalarNode])
  | str s => simp [seqCount]
  | int i => simp [seqCount]
  | bool b => simp [seqCount]
  | null => simp [seqCount]

/-- Claim C5: `fix_input` is a structural homomorphism: every node maps to a
node of the same container kind, sequences map element-wise preserving
length and order, mappings map pair-wise over their non-dropped pairs with
keys rewritten by the case convention (so the output key list is the
case-converted image of the non-dropped input keys), and the total count of
sequence elements is preserved. -/
theorem fix_input_structural_homomorphism (ki : String) (kc : String → String) :
    (∀ n : Node, InputHomo ki kc n (fix_input n ki kc)
        ∧ seqCount (fix_input n ki kc) = seqCount n)
    ∧ (∀ l : List Node, (fixInputList l ki kc).length = l.length)
    ∧ ∀ m : List (String × Node),
        keysOf (fixInputMap m ki kc)
          = (m.filter fun p => !isOmitVal p.2).map fun p => kc p.1 := by
  refine ⟨?_, fun l => fixInputList_length l ki kc, fun m => keysOf_fixInputMap m ki kc⟩
  intro n
  induction n using Node.inductionOn with
  | hscalar n hs =>
    refine ⟨InputHomo.scalar _ _ hs (fix_input_scalar_to_scalar n ki kc hs), ?_⟩
    rw [seqCount_scalar_zero _ hs,
      seqCount_scalar_zero _ (fix_input_scalar_to_scalar n ki kc hs)]
  | hlist l ih =>
    have heq : fix_input (.list l) ki kc = .list (l.map (fix_input · ki kc)) := by
      simp [fix_input, fixInputList_eq_map]
    rw [heq]
    constructor
    · exact InputHomo.list _ _ (inputHomoList_of_forall ki kc l fun x hx => (ih x hx).1)
    · simp only [seqCount]
      rw [List.length_map, seqCountList_congr l _ fun x hx => (ih x hx).2]
  | hmap m ih =>
    have heq : fix_input (.map m) ki kc
        = .map ((m.filter fun p => !isOmitVal p.2).map
            fun p => (kc p.1, fix_input p.2 ki kc)) := by
      simp [fix_input, fixInputMap_eq_filter_map]
    rw [heq]
    constructor
    · exact InputHomo.map _ _ (inputHomoMap_of_forall ki kc _
        fun p hp => (ih p (List.mem_of_mem_filter hp)).1)
    · simp only [seqCount]
      rw [seqCountMap_congr (m.filter fun p => !isOmitVal p.2) kc
          (fix_input · ki kc) fun p hp => (ih p (List.mem_of_mem_filter hp)).2,
        seqCountMap_filter_omit]

/-! ### Association-list lookup lemmas -/

theorem lookupKey_map_value (m : List (String × Node)) (f : Node → Node) (k : String) :
    lookupKey (m.map fun p => (p.1, f p.2)) k = (lookupKey m k).map f := by
  induction m with
  | nil => simp [lookupKey]
  | cons p rest ih =>
    by_cases hk : p.1 = k
    · simp [lookupKey, hk]
    · simp [lookupKey, hk, ih]

theorem lookupKey_filter_ne (m : List (String × Node)) (k tk : String) (hk : k ≠ tk) :
    lookupKey (m.filter fun p => !(p.1 == tk)) k = lookupKey m k := by
  induction m with
  | nil => simp [lookupKey]
  | cons p rest ih =>
    by_cases hp : p.1 = tk
    · have hpk : ¬ (p.1 = k) := fun h => hk (h ▸ hp)
      rw [List.filter_cons, if_neg (by simp [hp])]
      rw [ih]
      simp only [lookupKey, if_neg hpk]
    · rw [List.filter_cons, if_pos (by simp [hp])]
      by_cases hpk : p.1 = k
      · simp only [lookupKey, if_pos hpk]
      · simp only [lookupKey, if_neg hpk, ih]

theorem lookupKey_filter_self (m : List (String × Node)) (tk : String) :
    lookupKey (m.filter fun p => !(p.1 == tk)) tk = none := by
  induction m with
  | nil => simp [lookupKey]
  | cons p rest ih =>
    by_cases hp : p.1 = tk
    · rw [List.filter_cons, if_neg (by simp [hp])]
      exact ih
    · rw [List.filter_cons, if_pos (by simp [hp])]
      simp only [lookupKey, if_neg hp, ih]

theorem lookupKey_append_right (m1 m2 : List (String × Node)) (k : String)
    (h : lookupKey m1 k = none) : lookupKey (m1 ++ m2) k = lookupKey m2 k := by
  induction m1 with
  | nil => simp
  | cons p rest ih =>
    by_cases hp : p.1 = k
    · simp [lookupKey, hp] at h
    · simp only [lookupKey, hp, if_neg hp] at h
      simp [lookupKey, hp, ih h]

theorem lookupKey_append_left (m1 m2 : List (String × Node)) (k : String) (v : Node)
    (h : lookupKey m1 k = some v) : lookupKey (m1 ++ m2) k = some v := by
  induction m1 with
  | nil => simp [lookupKey] at h
  | cons p rest ih =>
    by_cases hp : p.1 = k
    · simp only [lookupKey, if_pos hp] at h
      simp [lookupKey, hp, h]
    · simp only [lookupKey, if_neg hp] at h
      simp [lookupKey, hp, ih h]

theorem tagFix_of_none (m : List (String × Node)) (tk : String)
    (h : lookupKey m tk = none) : tagFix m tk = m := by
  simp [tagFix, h]

theorem tagFix_lookup_self (m : List (String × Node)) (tk : String) (v : Node)
    (h : lookupKey m tk = some v) :
    lookupKey (tagFix m tk) tk = some (boto3_tag_list_to_ansible_dict v) := by
  simp only [tagFix, h]
  rw [lookupKey_append_right _ _ _ (lookupKey_filter_self m tk)]
  simp [lookupKey]

theorem tagFix_lookup_ne (m : List (String × Node)) (tk k : String) (hk : k ≠ tk) :
    lookupKey (tagFix m tk) k = lookupKey m k := by
  rcases h : lookupKey m tk with _ | v
  · rw [tagFix_of_none m tk h]
  · simp only [tagFix, h]
    rcases hl : lookupKey (m.filter fun p => !(p.1 == tk)) k with _ | w
    · rw [lookupKey_append_right _ _ _ hl]
      rw [lookupKey_filter_ne m k tk hk] at hl
      have htk : ¬ (tk = k) := fun h' => hk h'.symm
      simp only [lookupKey, if_neg htk]
      exact hl.symm
    · rw [lookupKey_append_left _ _ _ _ hl]
      rw [lookupKey_filter_ne m k tk hk] at hl
      exact hl.symm

/-- Claim C2 (counterexample): The claim says that with `convert_tags` on,
`fix_return` replaces the tag-list under a `tags`/`Tags` key in every mapping
at any nesting depth.  At the tree `\x7b"a": \x7b"Tags": [\x7bKey: k, Value: v\x7d]\x7d\x7d`
the nested `Tags` list is returned untouched (the whole tree is a fixed
point), although the tag conversion of that list would be the distinct node
`\x7b"k": "v"\x7d`. -/
theorem fix_return_nested_tags_counterexample :
    fix_return (.map [("a", .map [("Tags",
        .list [.map [("Key", .str "k"), ("Value", .str "v")]])])]) true
      = .map [("a", .map [("Tags",
          .list [.map [("Key", .str "k"), ("Value", .str "v")]])])]
    ∧ boto3_tag_list_to_ansible_dict
        (.list [.map [("Key", .str "k"), ("Value", .str "v")]])
      ≠ .list [.map [("Key", .str "k"), ("Value", .str "v")]] := by
  constructor
  · simp +decide [fix_return, fixReturnMap, fixReturnList, tagFix, lookupKey]
  · have hv : boto3_tag_list_to_ansible_dict
        (.list [.map [("Key", .str "k"), ("Value", .str "v")]])
        = .map [("k", .str "v")] := by
      simp +decide [boto3_tag_list_to_ansible_dict, lookupKey]
    rw [hv]
    intro h
    exact Node.noConfusion h

/-- Claim C2 (amended): With `convert_tags` on, `fix_return` replaces the
tag-list value under `tags`/`Tags` only in the top-level mapping it is called
on; both recursive calls omit the `convert_tags` argument (defaulting to
`False`), so every other key's value — and every deeper mapping — is
normalized with tag conversion off. -/
theorem fix_return_top_level_tags_only (m : List (String × Node)) (tl : List Node)
    (h1 : lookupKey m "Tags" = some (.list tl)) (h2 : lookupKey m "tags" = none) :
    ∃ m', fix_return (.map m) true = .map m'
      ∧ lookupKey m' "Tags"
          = some (boto3_tag_list_to_ansible_dict (fix_return (.list tl) false))
      ∧ ∀ k v, k ≠ "Tags" → k ≠ "tags" → lookupKey m k = some v →
          lookupKey m' k = some (fix_return v false) := by
  have hbase : fixReturnMap m = m.map fun p => (p.1, fix_return p.2 false) :=
    fixReturnMap_eq_map m
  have h2' : lookupKey (fixReturnMap m) "tags" = none := by
    rw [hbase, lookupKey_map_value m (fix_return · false) "tags", h2]
    rfl
  refine ⟨tagFix (tagFix (fixReturnMap m) "tags") "Tags", by simp [fix_return], ?_, ?_⟩
  · rw [tagFix_of_none _ _ h2']
    have h1' : lookupKey (fixReturnMap m) "Tags" = some (fix_return (.list tl) false) := by
      rw [hbase, lookupKey_map_value m (fix_return · false) "Tags", h1]
      rfl
    exact tagFix_lookup_self _ _ _ h1'
  · intro k v hkT hkt hlk
    rw [tagFix_lookup_ne _ _ _ hkT, tagFix_of_none _ _ h2',
      hbase, lookupKey_map_value m (fix_return · false) k, hlk]
    rfl

/-- Witness for `fix_return_top_level_tags_only`: a top-level `Tags` list is
converted while the sibling value is recursed with conversion off. -/
theorem fix_return_top_level_tags_only_witness :
    ∃ m', fix_return (.map [("Tags", .list [.map [("Key", .str "k"),
        ("Value", .str "v")]]), ("a", .str "x")]) true = .map m'
      ∧ lookupKey m' "Tags"
          = some (boto3_tag_list_to_ansible_dict
              (fix_return (.list [.map [("Key", .str "k"), ("Value", .str "v")]]) false))
      ∧ ∀ k v, k ≠ "Tags" → k ≠ "tags" →
          lookupKey [("Tags", Node.list [Node.map [("Key", Node.str "k"),
              ("Value", Node.str "v")]]), ("a", Node.str "x")] k = some v →
          lookupKey m' k = some (fix_return v false) :=
  fix_return_top_level_tags_only _ _ (by rfl) (by rfl)

/-! ### Response post-processing lemmas (claims C4 and C10) -/

theorem camel_changed : camel_to_snake "changed" = "changed" := by
  simp +decide [camel_to_snake, reSubFirstCap, reSubAllCap]

theorem camel_boto3 : camel_to_snake "boto3" = "boto3" := by
  simp +decide [camel_to_snake, reSubFirstCap, reSubAllCap]

theorem camel_tags_lower : camel_to_snake "tags" = "tags" := by
  simp +decide [camel_to_snake, reSubFirstCap, reSubAllCap]

theorem camel_tags_upper : camel_to_snake "Tags" = "tags" := by
  simp +decide [camel_to_snake, reSubFirstCap, reSubAllCap]

theorem camel_to_snake_no_upper (s : String) :
    (camel_to_snake s).data.all (fun c => !c.isUpper) = true := by
  unfold camel_to_snake
  rw [List.all_eq_true]
  intro c hc
  rw [List.mem_map] at hc
  obtain ⟨c0, -, rfl⟩ := hc
  rw [toLower_isUpper_false c0]
  rfl

theorem lookupKey_eq_none_iff (m : List (String × Node)) (k : String) :
    lookupKey m k = none ↔ k ∉ keysOf m := by
  induction m with
  | nil => simp [lookupKey, keysOf]
  | cons p rest ih =>
    by_cases hp : p.1 = k
    · simp [lookupKey, hp, keysOf]
    · simp only [lookupKey, if_neg hp, keysOf, List.map_cons, List.mem_cons, ih]
      constructor
      · intro h hmem
        rcases hmem with h1 | h2
        · exact hp h1.symm
        · exact h h2
      · intro h hmem
        exact h (Or.inr hmem)

theorem setKey_of_absent (m : List (String × Node)) (k : String) (v : Node)
    (h : lookupKey m k = none) : setKey m k v = m ++ [(k, v)] := by
  simp [setKey, h]

theorem camel_dict_eq_map (ms : List (String × Node)) :
    camel_dict_to_snake_dict ms
      = ms.map fun p => (camel_to_snake p.1, snakeValue p.2) := by
  induction ms with
  | nil => simp [camel_dict_to_snake_dict]
  | cons p rest ih =>
    obtain ⟨k, v⟩ := p
    simp [camel_dict_to_snake_dict, ih]

theorem lookupKey_mapkeys_some (ms : List (String × Node)) (g : String → String)
    (f : Node → Node) (q k : String) (v : Node) (hgk : g k = q)
    (hlk : lookupKey ms k = some v) (hinj : ∀ p ∈ ms, g p.1 = q → p.1 = k) :
    lookupKey (ms.map fun p => (g p.1, f p.2)) q = some (f v) := by
  induction ms with
  | nil => simp [lookupKey] at hlk
  | cons p rest ih =>
    by_cases hp : p.1 = k
    · simp only [lookupKey, if_pos hp] at hlk
      obtain rfl : p.2 = v := by injection hlk
      have hqq : g p.1 = q := by rw [hp, hgk]
      simp only [List.map_cons, lookupKey, if_pos hqq]
    · simp only [lookupKey, if_neg hp] at hlk
      have hgq : ¬ (g p.1 = q) := fun h =>
        hp (hinj p (List.mem_cons_self _ _) h)
      simp only [List.map_cons, lookupKey, if_neg hgq]
      exact ih hlk fun p hp' hq => hinj p (List.mem_cons_of_mem _ hp') hq

theorem lookupKey_mapkeys_none (ms : List (String × Node)) (g : String → String)
    (f : Node → Node) (q : String) (h : ∀ p ∈ ms, ¬ (g p.1 = q)) :
    lookupKey (ms.map fun p => (g p.1, f p.2)) q = none := by
  induction ms with
  | nil => simp [lookupKey]
  | cons p rest ih =>
    simp only [List.map_cons, lookupKey, if_neg (h p (List.mem_cons_self _ _))]
    exact ih fun p hp => h p (List.mem_cons_of_mem _ hp)

theorem keysOf_eraseKey_mem (m : List (String × Node)) (tk k : String)
    (h : k ∈ keysOf (eraseKey m tk)) : k ∈ keysOf m ∧ k ≠ tk := by
  simp only [eraseKey, keysOf, List.mem_map] at h
  obtain ⟨p, hp, rfl⟩ := h
  have := List.mem_filter.mp hp
  refine ⟨List.mem_map_of_mem _ this.1, ?_⟩
  simpa using this.2

theorem keysOf_fixReturnMap (ms : List (String × Node)) :
    keysOf (fixReturnMap ms) = keysOf ms := by
  rw [fixReturnMap_eq_map, keysOf, keysOf, List.map_map]
  rfl

theorem keysOf_tagFix_mem (ms : List (String × Node)) (tk k : String)
    (h : k ∈ keysOf (tagFix ms tk)) : k ∈ keysOf ms ∨ k = tk := by
  rcases hl : lookupKey ms tk with _ | v
  · rw [tagFix_of_none ms tk hl] at h
    exact Or.inl h
  · simp only [tagFix, hl, keysOf, List.map_append, List.mem_append] at h
    rcases h with h | h
    · rw [List.mem_map] at h
      obtain ⟨p, hp, rfl⟩ := h
      exact Or.inl (List.mem_map_of_mem _ (List.mem_filter.mp hp).1)
    · simp at h
      exact Or.inr h

theorem keysOf_append (a b : List (String × Node)) :
    keysOf (a ++ b) = keysOf a ++ keysOf b := by
  simp [keysOf]

theorem keysOf_camel_dict (ms : List (String × Node)) :
    keysOf (camel_dict_to_snake_dict ms) = (keysOf ms).map camel_to_snake := by
  rw [camel_dict_eq_map, keysOf, keysOf, List.map_map, List.map_map]
  rfl

theorem asMap_fix_return_map (ms : List (String × Node)) :
    asMap (fix_return (.map ms) true)
      = tagFix (tagFix (fixReturnMap ms) "tags") "Tags" := by
  simp [fix_return, asMap]

theorem outPipeline_lookup (ms : List (String × Node)) (k : String)
    (h1 : k ≠ "tags") (h2 : k ≠ "Tags") :
    lookupKey (tagFix (tagFix (fixReturnMap ms) "tags") "Tags") k
      = (lookupKey ms k).map (fix_return · false) := by
  rw [tagFix_lookup_ne _ _ _ h2, tagFix_lookup_ne _ _ _ h1,
    fixReturnMap_eq_map, lookupKey_map_value ms (fix_return · false) k]

theorem outPipeline_keys (ms : List (String × Node)) (k : String)
    (h : k ∈ keysOf (tagFix (tagFix (fixReturnMap ms) "tags") "Tags")) :
    k ∈ keysOf ms ∨ k = "tags" ∨ k = "Tags" := by
  rcases keysOf_tagFix_mem _ _ _ h with h' | h'
  · rcases keysOf_tagFix_mem _ _ _ h' with h'' | h''
    · rw [keysOf_fixReturnMap] at h''
      exact Or.inl h''
    · exact Or.inr (Or.inl h'')
  · exact Or.inr (Or.inr h')

theorem process_response_eq (m mm : List (String × Node)) (code : Node) (ver : String)
    (hmeta : lookupKey m "ResponseMetadata" = some (.map mm))
    (hcode : lookupKey mm "HTTPStatusCode" = some code) :
    process_response (.map m) ver
      = some (.map (camel_dict_to_snake_dict (asMap (fix_return
          (.map (if pyStartsWith (pyStr code) "2"
                 then setKey (setKey (eraseKey m "ResponseMetadata") "boto3" (.str ver))
                    "changed" (.bool true)
                 else setKey (eraseKey m "ResponseMetadata") "boto3" (.str ver)))
          true)))) := by
  simp [process_response, hmeta, hcode]

theorem camel_lookup_some (ms : List (String × Node)) (q k : String) (v : Node)
    (hq : camel_to_snake k = q) (hv : lookupKey ms k = some v)
    (hinj : ∀ k' ∈ keysOf ms, camel_to_snake k' = q → k' = k) :
    lookupKey (camel_dict_to_snake_dict ms) q = some (snakeValue v) := by
  rw [camel_dict_eq_map]
  exact lookupKey_mapkeys_some ms camel_to_snake snakeValue q k v hq hv
    fun p hp hcam => hinj p.1 (List.mem_map_of_mem _ hp) hcam

theorem camel_lookup_none (ms : List (String × Node)) (q : String)
    (hinj : ∀ k' ∈ keysOf ms, ¬ (camel_to_snake k' = q)) :
    lookupKey (camel_dict_to_snake_dict ms) q = none := by
  rw [camel_dict_eq_map]
  exact lookupKey_mapkeys_none ms camel_to_snake snakeValue q
    fun p hp => hinj p.1 (List.mem_map_of_mem _ hp)

theorem process_response_master (m mm : List (String × Node)) (code : Int) (ver : String)
    (hmeta : lookupKey m "ResponseMetadata" = some (.map mm))
    (hcode : lookupKey mm "HTTPStatusCode" = some (.int code))
    (hkeys : ∀ k ∈ keysOf m, k ≠ "ResponseMetadata" →
      camel_to_snake k ≠ "changed" ∧ camel_to_snake k ≠ "boto3" ∧
      camel_to_snake k ≠ "response_metadata") :
    ∃ out, process_response (.map m) ver = some (.map out)
      ∧ lookupKey out "boto3" = some (.str ver)
      ∧ (pyStartsWith (toString code) "2" = true →
          lookupKey out "changed" = some (.bool true))
      ∧ (pyStartsWith (toString code) "2" = false →
          lookupKey out "changed" = none)
      ∧ lookupKey out "response_metadata" = none
      ∧ ∀ k ∈ keysOf out, (∃ k0, k = camel_to_snake k0)
          ∧ k.data.all (fun c => !c.isUpper) = true := by
  have hpy : pyStr (Node.int code) = toString code := rfl
  have hb1 : lookupKey (eraseKey m "ResponseMetadata") "boto3" = none := by
    rw [lookupKey_eq_none_iff]
    intro hmem
    obtain ⟨hm, hne⟩ := keysOf_eraseKey_mem m "ResponseMetadata" "boto3" hmem
    exact (hkeys _ hm hne).2.1 camel_boto3
  have hch1 : lookupKey (eraseKey m "ResponseMetadata") "changed" = none := by
    rw [lookupKey_eq_none_iff]
    intro hmem
    obtain ⟨hm, hne⟩ := keysOf_eraseKey_mem m "ResponseMetadata" "changed" hmem
    exact (hkeys _ hm hne).1 camel_changed
  have hset2 : setKey (eraseKey m "ResponseMetadata") "boto3" (.str ver)
      = eraseKey m "ResponseMetadata" ++ [("boto3", .str ver)] :=
    setKey_of_absent _ _ _ hb1
  have hch2 : lookupKey (eraseKey m "ResponseMetadata"
      ++ [("boto3", Node.str ver)]) "changed" = none := by
    rw [lookupKey_append_right _ _ _ hch1]
    simp +decide [lookupKey]
  have hb3 : lookupKey (eraseKey m "ResponseMetadata"
      ++ [("boto3", Node.str ver)]) "boto3" = some (.str ver) := by
    rw [lookupKey_append_right _ _ _ hb1]
    simp [lookupKey]
  rw [process_response_eq m mm (.int code) ver hmeta hcode]
  cases hs : pyStartsWith (pyStr (Node.int code)) "2" with
  | false =>
    rw [if_neg (by simp [hs]), hset2, asMap_fix_return_map]
    have hsrc : ∀ k ∈ keysOf (eraseKey m "ResponseMetadata" ++ [("boto3", Node.str ver)]),
        (k ∈ keysOf m ∧ k ≠ "ResponseMetadata") ∨ k = "boto3" := by
      intro k hk
      rw [keysOf_append] at hk
      rcases List.mem_append.mp hk with hk | hk
      · exact Or.inl (keysOf_eraseKey_mem m _ k hk)
      · simp [keysOf] at hk
        exact Or.inr hk
    have hcases : ∀ k ∈ keysOf (tagFix (tagFix (fixReturnMap
        (eraseKey m "ResponseMetadata" ++ [("boto3", Node.str ver)])) "tags") "Tags"),
        (k ∈ keysOf m ∧ k ≠ "ResponseMetadata") ∨ k = "boto3" ∨ k = "tags" ∨ k = "Tags" := by
      intro k hk
      rcases outPipeline_keys _ k hk with hk' | hk' | hk'
      · rcases hsrc k hk' with h | h
        · exact Or.inl h
        · exact Or.inr (Or.inl h)
      · exact Or.inr (Or.inr (Or.inl hk'))
      · exact Or.inr (Or.inr (Or.inr hk'))
    refine ⟨_, rfl, ?_, ?_, ?_, ?_, ?_⟩
    · have ht2 : lookupKey (tagFix (tagFix (fixReturnMap
          (eraseKey m "ResponseMetadata" ++ [("boto3", Node.str ver)])) "tags") "Tags")
          "boto3" = some (.str ver) := by
        rw [outPipeline_lookup _ "boto3" (by decide) (by decide), hb3]
        simp [fix_return]
      have := camel_lookup_some _ "boto3" "boto3" (.str ver) camel_boto3 ht2 ?_
      · rw [this]
        simp [snakeValue]
      · intro k' hk' hcam
        rcases hcases k' hk' with ⟨hm', hne⟩ | h | h | h
        · exact absurd hcam (hkeys _ hm' hne).2.1
        · exact h
        · rw [h, camel_tags_lower] at hcam
          exact absurd hcam (by decide)
        · rw [h, camel_tags_upper] at hcam
          exact absurd hcam (by decide)
    · intro h2'
      rw [hpy] at hs
      simp [h2'] at hs
    · intro h2'
      apply camel_lookup_none
      intro k' hk' hcam
      rcases hcases k' hk' with ⟨hm', hne⟩ | h | h | h
      · exact (hkeys _ hm' hne).1 hcam
      · rw [h, camel_boto3] at hcam
        exact absurd hcam (by decide)
      · rw [h, camel_tags_lower] at hcam
        exact absurd hcam (by decide)
      · rw [h, camel_tags_upper] at hcam
        exact absurd hcam (by decide)
    · apply camel_lookup_none
      intro k' hk' hcam
      rcases hcases k' hk' with ⟨hm', hne⟩ | h | h | h
      · exact (hkeys _ hm' hne).2.2 hcam
      · rw [h, camel_boto3] at hcam
        exact absurd hcam (by decide)
      · rw [h, camel_tags_lower] at hcam
        exact absurd hcam (by decide)
      · rw [h, camel_tags_upper] at hcam
        exact absurd hcam (by decide)
    · intro k hk
      rw [keysOf_camel_dict, List.mem_map] at hk
      obtain ⟨k0, -, rfl⟩ := hk
      exact ⟨⟨k0, rfl⟩, camel_to_snake_no_upper k0⟩
  | true =>
    rw [if_pos (by simp [hs]), hset2, setKey_of_absent _ _ _ hch2, asMap_fix_return_map]
    have hsrc : ∀ k ∈ keysOf ((eraseKey m "ResponseMetadata"
        ++ [("boto3", Node.str ver)]) ++ [("changed", Node.bool true)]),
        (k ∈ keysOf m ∧ k ≠ "ResponseMetadata") ∨ k = "boto3" ∨ k = "changed" := by
      intro k hk
      rw [keysOf_append, keysOf_append] at hk
      rcases List.mem_append.mp hk with hk | hk
      · rcases List.mem_append.mp hk with hk | hk
        · exact Or.inl (keysOf_eraseKey_mem m _ k hk)
        · simp [keysOf] at hk
          exact Or.inr (Or.inl hk)
      · simp [keysOf] at hk
        exact Or.inr (Or.inr hk)
    have hcases : ∀ k ∈ keysOf (tagFix (tagFix (fixReturnMap
        ((eraseKey m "ResponseMetadata" ++ [("boto3", Node.str ver)])
          ++ [("changed", Node.bool true)])) "tags") "Tags"),
        (k ∈ keysOf m ∧ k ≠ "ResponseMetadata") ∨ k = "boto3" ∨ k = "changed"
          ∨ k = "tags" ∨ k = "Tags" := by
      intro k hk
      rcases outPipeline_keys _ k hk with hk' | hk' | hk'
      · rcases hsrc k hk' with h | h | h
        · exact Or.inl h
        · exact Or.inr (Or.inl h)
        · exact Or.inr (Or.inr (Or.inl h))
      · exact Or.inr (Or.inr (Or.inr (Or.inl hk')))
      · exact Or.inr (Or.inr (Or.inr (Or.inr hk')))
    refine ⟨_, rfl, ?_, ?_, ?_, ?_, ?_⟩
    · have ht2 : lookupKey (tagFix (tagFix (fixReturnMap
          ((eraseKey m "ResponseMetadata" ++ [("boto3", Node.str ver)])
            ++ [("changed", Node.bool true)])) "tags") "Tags")
          "boto3" = some (.str ver) := by
        rw [outPipeline_lookup _ "boto3" (by decide) (by decide),
          lookupKey_append_left _ _ _ _ hb3]
        simp [fix_return]
      have := camel_lookup_some _ "boto3" "boto3" (.str ver) camel_boto3 ht2 ?_
      · rw [this]
        simp [snakeValue]
      · intro k' hk' hcam
        rcases hcases k' hk' with ⟨hm', hne⟩ | h | h | h | h
        · exact absurd hcam (hkeys _ hm' hne).2.1
        · exact h
        · rw [h, camel_changed] at hcam
          exact absurd hcam (by decide)
        · rw [h, camel_tags_lower] at hcam
          exact absurd hcam (by decide)
        · rw [h, camel_tags_upper] at hcam
          exact absurd hcam (by decide)
    · intro h2'
      have ht2 : lookupKey (tagFix (tagFix (fixReturnMap
          ((eraseKey m "ResponseMetadata" ++ [("boto3", Node.str ver)])
            ++ [("changed", Node.bool true)])) "tags") "Tags")
          "changed" = some (.bool true) := by
        rw [outPipeline_lookup _ "changed" (by decide) (by decide),
          lookupKey_append_right _ _ _ hch2]
        simp [lookupKey, fix_return]
      have := camel_lookup_some _ "changed" "changed" (.bool true) camel_changed ht2 ?_
      · rw [this]
        simp [snakeValue]
      · intro k' hk' hcam
        rcases hcases k' hk' with ⟨hm', hne⟩ | h | h | h | h
        · exact absurd hcam (hkeys _ hm' hne).1
        · rw [h, camel_boto3] at hcam
          exact absurd hcam (by decide)
        · exact h
        · rw [h, camel_tags_lower] at hcam
          exact absurd hcam (by decide)
        · rw [h, camel_tags_upper] at hcam
          exact absurd hcam (by decide)
    · intro h2'
      rw [hpy] at hs
      simp [h2'] at hs
    · apply camel_lookup_none
      intro k' hk' hcam
      rcases hcases k' hk' with ⟨hm', hne⟩ | h | h | h | h
      · exact (hkeys _ hm' hne).2.2 hcam
      · rw [h, camel_boto3] at hcam
        exact absurd hcam (by decide)
      · rw [h, camel_changed] at hcam
        exact absurd hcam (by decide)
      · rw [h, camel_tags_lower] at hcam
        exact absurd hcam (by decide)
      · rw [h, camel_tags_upper] at hcam
        exact absurd hcam (by decide)
    · intro k hk
      rw [keysOf_camel_dict, List.mem_map] at hk
      obtain ⟨k0, -, rfl⟩ := hk
      exact ⟨⟨k0, rfl⟩, camel_to_snake_no_upper k0⟩

/-- Claim C4: For every raw response mapping with a `ResponseMetadata`
sub-mapping holding an integer `HTTPStatusCode`, the bridge's final response
omits the metadata sub-mapping (`response_metadata` is absent), adds the
client-library version string under `boto3`, rewrites every key through
snake-casing (no uppercase characters remain), and contains `changed = true`
exactly when the decimal representation of the status code starts with the
digit `2`; response normalization returns a result — it raises no error — for
non-2xx codes as well.  `hkeys` rules out raw keys whose snake-case image
collides with the bridge-added keys (AWS responses are CamelCase and cannot
collide). -/
theorem process_response_ok (m mm : List (String × Node)) (code : Int) (ver : String)
    (hmeta : lookupKey m "ResponseMetadata" = some (.map mm))
    (hcode : lookupKey mm "HTTPStatusCode" = some (.int code))
    (hkeys : ∀ k ∈ keysOf m, k ≠ "ResponseMetadata" →
      camel_to_snake k ≠ "changed" ∧ camel_to_snake k ≠ "boto3" ∧
      camel_to_snake k ≠ "response_metadata") :
    ∃ out, process_response (.map m) ver = some (.map out)
      ∧ lookupKey out "boto3" = some (.str ver)
      ∧ (lookupKey out "changed" = some (.bool true)
          ↔ pyStartsWith (toString code) "2" = true)
      ∧ lookupKey out "response_metadata" = none
      ∧ ∀ k ∈ keysOf out, (∃ k0, k = camel_to_snake k0)
          ∧ k.data.all (fun c => !c.isUpper) = true := by
  obtain ⟨out, h1, h2, h3, h4, h5, h6⟩ :=
    process_response_master m mm code ver hmeta hcode hkeys
  refine ⟨out, h1, h2, ?_, h5, h6⟩
  cases hb : pyStartsWith (toString code) "2" with
  | true => simp [hb, h3 hb]
  | false =>
    rw [h4 hb]
    simp [hb]

/-- Witness for `process_response_ok`: the spec's own 404 example, with one
payload key `Foo`. -/
theorem process_response_ok_witness :
    ∃ out, process_response (.map [("ResponseMetadata",
        .map [("HTTPStatusCode", .int 404)]), ("Foo", .str "bar")]) "1.4.4"
        = some (.map out)
      ∧ lookupKey out "boto3" = some (.str "1.4.4")
      ∧ (lookupKey out "changed" = some (.bool true)
          ↔ pyStartsWith (toString (404 : Int)) "2" = true)
      ∧ lookupKey out "response_metadata" = none
      ∧ ∀ k ∈ keysOf out, (∃ k0, k = camel_to_snake k0)
          ∧ k.data.all (fun c => !c.isUpper) = true := by
  apply process_response_ok
    [("ResponseMetadata", .map [("HTTPStatusCode", .int 404)]), ("Foo", .str "bar")]
    [("HTTPStatusCode", .int 404)] 404 "1.4.4" rfl rfl
  intro k hk hne
  simp [keysOf] at hk
  rcases hk with rfl | rfl
  · exact absurd rfl hne
  · refine ⟨?_, ?_, ?_⟩ <;> simp +decide [camel_to_snake, reSubFirstCap, reSubAllCap]

/-- Claim C10: In every successful bridge response the key `changed`, when
present, maps to `true`; the bridge never emits `changed = false` — for a
status code whose decimal representation does not start with `2` the key is
simply absent. -/
theorem process_response_changed_never_false (m mm : List (String × Node))
    (code : Int) (ver : String)
    (hmeta : lookupKey m "ResponseMetadata" = some (.map mm))
    (hcode : lookupKey mm "HTTPStatusCode" = some (.int code))
    (hkeys : ∀ k ∈ keysOf m, k ≠ "ResponseMetadata" →
      camel_to_snake k ≠ "changed" ∧ camel_to_snake k ≠ "boto3" ∧
      camel_to_snake k ≠ "response_metadata") :
    ∃ out, process_response (.map m) ver = some (.map out)
      ∧ (lookupKey out "changed" = some (.bool true)
          ∨ lookupKey out "changed" = none)
      ∧ (pyStartsWith (toString code) "2" = false →
          lookupKey out "changed" = none) := by
  obtain ⟨out, h1, h2, h3, h4, h5, h6⟩ :=
    process_response_master m mm code ver hmeta hcode hkeys
  refine ⟨out, h1, ?_, h4⟩
  cases hb : pyStartsWith (toString code) "2" with
  | true => exact Or.inl (h3 hb)
  | false => exact Or.inr (h4 hb)

/-- Witness for `process_response_changed_never_false` at a 500 status with
one payload key `Data`. -/
theorem process_response_changed_never_false_witness :
    ∃ out, process_response (.map [("ResponseMetadata",
        .map [("HTTPStatusCode", .int 500)]), ("Data", .str "d")]) "1.4.4"
        = some (.map out)
      ∧ (lookupKey out "changed" = some (.bool true)
          ∨ lookupKey out "changed" = none)
      ∧ (pyStartsWith (toString (500 : Int)) "2" = false →
          lookupKey out "changed" = none) := by
  apply process_response_changed_never_false
    [("ResponseMetadata", .map [("HTTPStatusCode", .int 500)]), ("Data", .str "d")]
    [("HTTPStatusCode", .int 500)] 500 "1.4.4" rfl rfl
  intro k hk hne
  simp [keysOf] at hk
  rcases hk with rfl | rfl
  · exact absurd rfl hne
  · refine ⟨?_, ?_, ?_⟩ <;> simp +decide [camel_to_snake, reSubFirstCap, reSubAllCap]

/-! ### Sanity checks on concrete inputs -/

example : pc "this_function_name" = "ThisFunctionName" := by decide
example : cc "this_function_name" = some "thisFunctionName" := by decide
example : pc "a__b" = "AB" := by decide
example : cc "" = none := by decide
example : cc "___" = none := by decide

example :
    fix_input (.map [("a_b", .str "123"), ("c", .str "__omit_me")]) "yes" pc
      = .map [("AB", .int 123)] := by
  simp +decide [fix_input, fixInputMap, isOmitVal, pyIsDigit, pyIntOfDigits, pc, pyStartsWith]
example : fix_input (.str "_123") "yes" as_is = .str "123" := by
  simp +decide [fix_input, pyIsDigit, pyStartsWith, pyTail]
example : fix_input (.str "123") "no" as_is = .str "123" := by
  simp +decide [fix_input, pyIsDigit, pyStartsWith, pyTail]
example : fix_input (.list [.str "__omit_me"]) "yes" as_is = .list [.str "__omit_me"] := by
  simp +decide [fix_input, fixInputList, pyIsDigit, pyStartsWith, pyTail]

example : camel_to_snake "ResponseMetadata" = "response_metadata" := by
  simp +decide [camel_to_snake, reSubFirstCap, reSubAllCap]
example : camel_to_snake "HTTPStatusCode" = "http_status_code" := by
  simp +decide [camel_to_snake, reSubFirstCap, reSubAllCap]
example : camel_to_snake "changed" = "changed" := by
  simp +decide [camel_to_snake, reSubFirstCap, reSubAllCap]
example : camel_to_snake "boto3" = "boto3" := by
  simp +decide [camel_to_snake, reSubFirstCap, reSubAllCap]
example : camel_to_snake "Tags" = "tags" := by
  simp +decide [camel_to_snake, reSubFirstCap, reSubAllCap]
